import Mathlib

/-!
Shallow embedding of the safety core of the ts-cli-tool repository
(command-safety validator, config sanitizer, step executor, snapshot
manager and undo engine), together with theorems settling the claims
of the specification against the embedded code.

String-processing primitives mirror the JavaScript semantics the source
relies on (regular-expression character classes, `trim`, `split(/\s+/)`,
`replace`, `path.posix.join` normalisation).
-/

namespace TsCli

/-- Character class of the JavaScript regex escape `\\s` (whitespace),
by code point: tab through carriage return, space, no-break space,
ogham space mark, the general punctuation spaces, line and paragraph
separators, narrow no-break space, medium mathematical space,
ideographic space and the byte-order mark. -/
def isSpaceJS (c : Char) : Bool :=
  (9 ≤ c.toNat ∧ c.toNat ≤ 13) ∨ c.toNat = 32 ∨ c.toNat = 0xa0 ∨
  c.toNat = 0x1680 ∨ (0x2000 ≤ c.toNat ∧ c.toNat ≤ 0x200a) ∨
  c.toNat = 0x2028 ∨ c.toNat = 0x2029 ∨ c.toNat = 0x202f ∨
  c.toNat = 0x205f ∨ c.toNat = 0x3000 ∨ c.toNat = 0xfeff

/-- Character class `[a-zA-Z0-9._/@:=*-]` plus `\s` of `SAFE_CHARS_RE`
(`src/config/loadConfig.ts`) and of the first check of `isSafeCommand`
(`src/subsystems/checks.ts`). -/
def safeCmdChar (c : Char) : Bool :=
  ('a' ≤ c ∧ c ≤ 'z') ∨ ('A' ≤ c ∧ c ≤ 'Z') ∨ ('0' ≤ c ∧ c ≤ '9') ∨
  c = '.' ∨ c = '_' ∨ c = '-' ∨ c = '/' ∨ c = '@' ∨ c = ':' ∨ c = '=' ∨ c = '*' ∨
  isSpaceJS c

/-- Character class `[a-zA-Z0-9._-]` plus the slash of `isSafePath`
(`src/utils/process.ts`). -/
def safePathChar (c : Char) : Bool :=
  ('a' ≤ c ∧ c ≤ 'z') ∨ ('A' ≤ c ∧ c ≤ 'Z') ∨ ('0' ≤ c ∧ c ≤ '9') ∨
  c = '.' ∨ c = '_' ∨ c = '-' ∨ c = '/'

/-- Test of an anchored one-or-more character-class regex
`/^[class]+$/.test(s)`: the string is nonempty and every character is in
the class. -/
def matchesAll1 (p : Char → Bool) (s : String) : Bool :=
  ¬ s.data.isEmpty ∧ s.data.all p

/-- Detector for the substring `..` used by `isSafePath` and
`sanitizeConfig` (`value.includes("..")`). -/
def hasDotDot : List Char → Bool
  | '.' :: '.' :: _ => true
  | _ :: rest => hasDotDot rest
  | [] => false

/-- Left whitespace trimming. -/
def trimL (l : List Char) : List Char := l.dropWhile isSpaceJS

/-- JavaScript `String.prototype.trim`. -/
def trimJS (s : String) : String :=
  String.mk (((trimL s.data).reverse.dropWhile isSpaceJS).reverse)

/-- Accumulator-passing worker splitting a character list into maximal
runs of non-whitespace characters. -/
def wsTokensGo (acc : List Char) : List Char → List (List Char)
  | [] => if acc.isEmpty then [] else [acc.reverse]
  | c :: cs =>
    if isSpaceJS c then
      if acc.isEmpty then wsTokensGo [] cs else acc.reverse :: wsTokensGo [] cs
    else wsTokensGo (c :: acc) cs

/-- Maximal runs of non-whitespace characters: the semantics of
`s.trim().split(/\s+/)` on a nonempty trim result, and of
`s.trim().split(/\s+/).filter(Boolean)` in general. -/
def wsTokens (l : List Char) : List (List Char) := wsTokensGo [] l

/-- First element of `cmd.trim().split(/\s+/)`: the first
whitespace-delimited token, or the empty string if there is none. -/
def firstToken (s : String) : String :=
  match wsTokens (trimJS s).data with
  | [] => ""
  | t :: _ => String.mk t

/-- Worker for `replace(/^.*\//, "")`: the suffix after the last slash.
Faithful on inputs without a newline (regex `.` does not cross lines);
the source only applies it to whitespace-free tokens. -/
def lastSeg (l : List Char) : List Char :=
  l.foldl (fun acc c => if c = '/' then [] else acc ++ [c]) []

/-- Strip leading path components from a token (`replace(/^.*\//, "")`),
and the basename of a slash-separated path. -/
def afterLastSlash (s : String) : String := String.mk (lastSeg s.data)

/-- Worker for substring search: does the pattern lead the list? -/
def leadsWith : List Char → List Char → Bool
  | [], _ => true
  | _ :: _, [] => false
  | p :: ps, x :: xs => if p = x then leadsWith ps xs else false

/-- Substring search over character lists (JavaScript `includes`). -/
def hasSubList (pat : List Char) : List Char → Bool
  | [] => pat.isEmpty
  | c :: rest => leadsWith pat (c :: rest) || hasSubList pat rest

/-- JavaScript `s.includes(pat)`. -/
def strContains (s pat : String) : Bool := hasSubList pat.data s.data

/-- The fixed allowlist `KNOWN_TOOL_BINARIES`, identical in
`src/subsystems/checks.ts` and `src/config/loadConfig.ts`. -/
def KNOWN_TOOL_BINARIES : List String :=
  ["ruff", "black", "autopep8", "yapf", "isort", "pyink",
   "flake8", "pylint", "pyflakes", "pydocstyle", "pycodestyle", "bandit", "vulture",
   "mypy", "pyright", "pytype", "pyre",
   "pytest", "unittest", "nose2", "tox", "nox", "coverage",
   "pip", "uv", "poetry", "pipenv", "pdm",
   "python", "python3", "pre-commit", "sphinx-build",
   "npm", "npx", "pnpm", "yarn"]

/-- Result record of `isSafeCommand`. -/
structure SafeResult where
  safe : Bool
  reason : String
deriving DecidableEq

/-- Embedding of `isSafeCommand` (`src/subsystems/checks.ts` lines
83 to 98): empty-command rejection, then the character allowlist, then
the known-binary allowlist on the first token with leading path
components stripped. -/
def isSafeCommand (cmd : String) : SafeResult :=
  if (trimJS cmd).data.isEmpty then { safe := false, reason := "Empty command" }
  else if ¬ matchesAll1 safeCmdChar cmd then
    { safe := false, reason := "contains shell metacharacters" }
  else
    let binary := afterLastSlash (firstToken cmd)
    if KNOWN_TOOL_BINARIES.contains binary then { safe := true, reason := "" }
    else { safe := false, reason := "unrecognized tool \x27" ++ binary ++ "\x27" }

/-- Embedding of `isSafePath` (`src/utils/process.ts` lines 49 to 51):
the anchored `[a-zA-Z0-9._-]` plus the slash-plus regex test conjoined with `!value.includes("..")`. -/
def isSafePath (value : String) : Bool :=
  matchesAll1 safePathChar value ∧ ¬ hasDotDot value.data

/-- Embedding of `isSafeConfigCommand` (`src/config/loadConfig.ts` lines
99 to 103): `SAFE_CHARS_RE` then the known-binary allowlist. -/
def isSafeConfigCommand (cmd : String) : Bool :=
  if ¬ matchesAll1 safeCmdChar cmd then false
  else KNOWN_TOOL_BINARIES.contains (afterLastSlash (firstToken cmd))

/-- Accumulator-passing worker splitting a character list at every
slash, keeping empty segments, as `String.prototype.split("/")` does. -/
def splitSlashGo (acc : List Char) : List Char → List (List Char)
  | [] => [acc.reverse]
  | c :: cs =>
    if c = '/' then acc.reverse :: splitSlashGo [] cs
    else splitSlashGo (c :: acc) cs

/-- Path components of a string, separated by slashes. -/
def splitSlash (s : String) : List String :=
  (splitSlashGo [] s.data).map String.mk

/-- Does the string start with a slash (an absolute posix path)? -/
def isAbs (s : String) : Bool :=
  match s.data with
  | '/' :: _ => true
  | _ => false

/-- Component normalisation of `path.posix.normalize`: empty and `.`
segments are dropped, `..` pops the previous segment, a `..` at the root
of an absolute path is dropped and at the front of a relative path is
kept. The accumulator holds the kept segments in reverse. -/
def normGo (abs : Bool) (acc : List String) : List String → List String
  | [] => acc.reverse
  | c :: rest =>
    if c = "" ∨ c = "." then normGo abs acc rest
    else if c = ".." then
      match acc with
      | [] => if abs then normGo abs [] rest else normGo abs [".."] rest
      | top :: pre =>
        if top = ".." then normGo abs (".." :: (top :: pre)) rest
        else normGo abs pre rest
    else normGo abs (c :: acc) rest

/-- Joining of path components with slashes. -/
def joinComps : List String → String
  | [] => ""
  | [c] => c
  | c :: rest => c ++ "/" ++ joinComps rest

/-- Embedding of `path.posix.normalize` (without trailing-slash
preservation, which no caller in the embedded core relies on). -/
def normalizePath (s : String) : String :=
  let abs := isAbs s
  let comps := normGo abs [] (splitSlash s)
  if abs then "/" ++ joinComps comps
  else if comps.isEmpty then "." else joinComps comps

/-- Embedding of the two-argument `path.posix.join`: concatenate the
nonempty parts with a slash and normalise. -/
def pathJoin (a b : String) : String :=
  if a = "" ∧ b = "" then "."
  else if a = "" then normalizePath b
  else if b = "" then normalizePath a
  else normalizePath (a ++ "/" ++ b)

/-- Embedding of `path.basename` for paths without a trailing slash,
which is the only shape the undo engine feeds it. -/
def basename (s : String) : String := afterLastSlash s

/-- Embedding of `path.dirname` for paths without a trailing slash. -/
def dirName (s : String) : String :=
  match (splitSlashGo [] s.data).dropLast with
  | [] => "."
  | [[]] => "/"
  | parts => String.mk (((parts.map (fun p => p ++ ['/'])).flatten)).dropLast

/-- Containment of a target path under a root: the target is the root
itself or a strict descendant of it. -/
def isUnder (root target : String) : Bool :=
  decide (target = root) || leadsWith (root ++ "/").data target.data

/-- The snapshot-name encoding of `snapshotPathsForStep`
(`src/core/snapshots.ts` line 15): `candidate.replace(/[\\/:]/g, "_")`. -/
def encodeSnapshotName (candidate : String) : String :=
  String.mk (candidate.data.map (fun c => if c = '/' ∨ c = '\\' ∨ c = ':' then '_' else c))

/-- The decoding used by `undoLatest` (`src/core/undo.ts`): the snapshot
basename with every underscore mapped back to the path separator,
`base.replace(/_/g, path.sep)` with the posix separator. -/
def decodeSnapshotBase (base : String) : String :=
  String.mk (base.data.map (fun c => if c = '_' then '/' else c))

/-- Observable side effects of the embedded core: a shell command run,
a recursive copy, a recursive directory creation, a sleep. -/
inductive Effect where
  | runCmd (cmd : String)
  | copy (src dest : String)
  | mkdirp (dir : String)
  | sleep (ms : Nat)
deriving DecidableEq

/-- Result record of `runShellCommand` (`src/utils/process.ts`). -/
structure CommandResult where
  success : Bool
  code : Nat
  stdout : String
  stderr : String
deriving DecidableEq

/-- Undo hint of a step (`UndoHint` in `src/types.ts`). -/
structure UndoHint where
  action : String
  command : Option String
deriving DecidableEq

/-- Step subsystem tag (`Subsystem` in `src/types.ts`). -/
inductive Subsystem where
  | node | python | docker | checks | meta
deriving DecidableEq

/-- Step phase tag (the `phase` field of `FixStep` in `src/types.ts`). -/
inductive Phase where
  | detect | ports | docker | node | python | checks
deriving DecidableEq

/-- Step lifecycle status (`StepStatus` in `src/types.ts`); the source
value `partial` is rendered `partialDone` here. -/
inductive StepStatus where
  | planned | proposed | running | success | failed | skipped | partialDone
deriving DecidableEq

/-- Embedding of the `FixStep` record of `src/types.ts`, restricted to
the fields the executor and undo engine read or write. -/
structure FixStep where
  id : String
  title : String
  subsystem : Subsystem
  phase : Phase
  rationale : String
  commands : List String
  destructive : Bool
  irreversible : Bool
  undoable : Bool
  undoHints : List UndoHint
  snapshotPaths : Option (List String)
  status : StepStatus
  output : Option String
  error : Option String
  proposedReason : Option String
deriving DecidableEq

/-- Embedding of the `RunReport` record, restricted to the fields the
undo engine reads. -/
structure RunReport where
  runId : String
  steps : List FixStep
deriving DecidableEq

/-- Per-step undo outcome (`UndoEntry` in `src/types.ts`). -/
structure UndoEntry where
  stepId : String
  snapshotPaths : List String
  restored : List String
  skipped : List String
  missingSnapshot : List String
  failed : List String
  nextBestAction : Option String
deriving DecidableEq

/-- Environment oracle for the effectful parts of the code: shell
results indexed by a logical instant (one instant per sequential command
issue, one per poll round), file existence, success of a
mkdir-plus-copy restore attempt, the interactive confirmation answer,
and the parsed content of a run-report file. -/
structure Env where
  run : Nat → String → CommandResult
  fileExists : String → Bool
  restoreOk : String → String → Bool
  confirm : String → Bool
  readReport : String → Option RunReport

/-- Embedding of `snapshotPathsForStep` (`src/core/snapshots.ts` lines
5 to 21): copy every existing candidate under
`snapshotRoot/stepId/encoded-name`, silently skipping absent sources,
returning the created destinations together with the filesystem
effects. -/
def snapshotPathsForStep (env : Env) (cwd snapshotRoot stepId : String) :
    List String → List String × List Effect
  | [] => ([], [])
  | candidate :: rest =>
    let source := pathJoin cwd candidate
    let tail := snapshotPathsForStep env cwd snapshotRoot stepId rest
    if env.fileExists source then
      let dest := pathJoin (pathJoin snapshotRoot stepId) (encodeSnapshotName candidate)
      (dest :: tail.1, Effect.mkdirp (dirName dest) :: Effect.copy source dest :: tail.2)
    else tail

/-- The `nextBestAction` of an undo entry:
`step.undoHints?.[0]?.command`. -/
def nextHint (step : FixStep) : Option String :=
  match step.undoHints with
  | [] => none
  | h :: _ => h.command

/-- Restore loop of `undoLatest` over one step's recorded snapshot
paths (the newer undo engine): a missing snapshot is recorded under
`missingSnapshot`; otherwise the target is decoded from the basename,
resolved against the working root, its parent directory created and the
snapshot copied over it, recording the target under `restored`, or
under `failed` if the copy attempt throws. Returns the `restored`,
`failed` and `missingSnapshot` lists with the effects. -/
def undoSnaps (env : Env) (cwd : String) :
    List String → (List String × List String × List String) × List Effect
  | [] => (([], [], []), [])
  | snap :: rest =>
    let tail := undoSnaps env cwd rest
    if ¬ env.fileExists snap then
      ((tail.1.1, tail.1.2.1, snap :: tail.1.2.2), tail.2)
    else
      let base := basename snap
      let relativePath := decodeSnapshotBase base
      let target := pathJoin cwd relativePath
      if env.restoreOk snap target then
        ((target :: tail.1.1, tail.1.2.1, tail.1.2.2),
          Effect.mkdirp (dirName target) :: Effect.copy snap target :: tail.2)
      else ((tail.1.1, target :: tail.1.2.1, tail.1.2.2), tail.2)

/-- Per-step body of `undoLatest`: a step that is not undoable or has no
recorded snapshot paths is recorded as wholly skipped with reason
"not undoable or no snapshot" and nothing is attempted on disk;
otherwise the restore loop runs over its snapshot paths. -/
def undoStep (env : Env) (cwd : String) (step : FixStep) : UndoEntry × List Effect :=
  if ¬ step.undoable ∨ (step.snapshotPaths.getD []).isEmpty then
    ({ stepId := step.id, snapshotPaths := step.snapshotPaths.getD [],
       restored := [], skipped := ["not undoable or no snapshot"],
       missingSnapshot := [], failed := [], nextBestAction := nextHint step }, [])
  else
    let r := undoSnaps env cwd (step.snapshotPaths.getD [])
    ({ stepId := step.id, snapshotPaths := step.snapshotPaths.getD [],
       restored := r.1.1, skipped := [], missingSnapshot := r.1.2.2,
       failed := r.1.2.1, nextBestAction := nextHint step }, r.2)

/-- Step loop of `undoLatest`: entries in the report's original step
order. -/
def undoSteps (env : Env) (cwd : String) : List FixStep → List UndoEntry × List Effect
  | [] => ([], [])
  | step :: rest =>
    let head := undoStep env cwd step
    let tail := undoSteps env cwd rest
    (head.1 :: tail.1, head.2 ++ tail.2)

/-- Embedding of `undoLatest`: read the persisted report (a null report
yields a null result with no entries), then process every step. -/
def undoLatest (env : Env) (reportPath cwd : String) :
    (Option RunReport × List UndoEntry) × List Effect :=
  match env.readReport reportPath with
  | none => ((none, []), [])
  | some report =>
    let r := undoSteps env cwd report.steps
    ((some report, r.1), r.2)

/-- The python tool command lists of the configuration
(`config.python.tools`). -/
structure PythonTools where
  format : List String
  lint : List String
  test : List String
deriving DecidableEq

/-- The slice of the configuration record that `sanitizeConfig` reads
or rewrites: the python tool command lists and the node cache directory
list. All other configuration fields pass through `sanitizeConfig`
untouched. -/
structure Config where
  pythonTools : PythonTools
  nodeCachesDirectories : List String
deriving DecidableEq

/-- Embedding of `sanitizeConfig` (`src/config/loadConfig.ts` lines 109
to 121): filter the python tool command lists through
`isSafeConfigCommand`, and the node cache directory list through
`SAFE_CHARS_RE` plus rejection of entries containing `..`. -/
def sanitizeConfig (config : Config) : Config :=
  { config with
    pythonTools :=
      { format := config.pythonTools.format.filter isSafeConfigCommand,
        lint := config.pythonTools.lint.filter isSafeConfigCommand,
        test := config.pythonTools.test.filter isSafeConfigCommand },
    nodeCachesDirectories :=
      config.nodeCachesDirectories.filter
        (fun d => matchesAll1 safeCmdChar d ∧ ¬ hasDotDot d.data) }

/-- CLI flags read by the executor (`CliFlags` in `src/types.ts`,
restricted to the fields `executeSteps` consults). -/
structure CliFlags where
  dryRun : Bool
  deep : Bool
  approve : Bool
  verbose : Bool
deriving DecidableEq

/-- The invocation command of a run (`CommandContext["command"]`). -/
inductive Command where
  | run | doctor | plan | report | undo | clearNpmCache | clearYarnCache | clearPnpmCache
deriving DecidableEq

/-- Embedding of `CommandContext` (`src/types.ts`). -/
structure CommandContext where
  command : Command
  cwd : String
  runId : String
  flags : CliFlags
  interactive : Bool
deriving DecidableEq

/-- `needsApproval` (`src/core/safety.ts` line 3). -/
def needsApproval (step : FixStep) : Bool := step.destructive

/-- `canAutoRunDestructive` (`src/core/safety.ts` line 7): the `deep`
or `approve` flag authorizes destructive execution. -/
def canAutoRunDestructive (ctx : CommandContext) : Bool :=
  ctx.flags.deep ∨ ctx.flags.approve

/-- `shouldPromptForDestructive` (`src/core/safety.ts` line 11). -/
def shouldPromptForDestructive (ctx : CommandContext) (step : FixStep) : Bool :=
  needsApproval step ∧ ¬ canAutoRunDestructive ctx ∧ ctx.interactive

/-- `snapshotCandidates` (`src/core/executor.ts` line 16): lockfile
steps snapshot the three lockfiles, every other destructive step has no
candidates. -/
def snapshotCandidates (step : FixStep) : List String :=
  if strContains step.id "lockfiles" then
    ["package-lock.json", "pnpm-lock.yaml", "yarn.lock"]
  else []

/-- Joining of a string list with a separator (JavaScript
`Array.prototype.join`). -/
def joinSep (sep : String) : List String → String
  | [] => ""
  | [x] => x
  | x :: rest => x ++ sep ++ joinSep sep rest

/-- First capture of the regex `:(\d+)` in a command string: the first
colon followed by at least one digit yields the maximal digit run. -/
def extractPortGo : List Char → Option String
  | [] => none
  | ':' :: rest =>
    let ds := rest.takeWhile Char.isDigit
    if ds.isEmpty then extractPortGo rest else some (String.mk ds)
  | _ :: rest => extractPortGo rest

/-- Port extraction of `verifyPortsReleased`:
`commands.map((c) => c.match(/:(\d+)/)?.[1]).filter(Boolean)`. -/
def extractPorts (commands : List String) : List String :=
  commands.filterMap (fun c => extractPortGo c.data)

/-- The liveness probe command for one port. -/
def lsofCmd (p : String) : String := "lsof -ti :" ++ p

/-- PID list of one probe result:
`result.stdout.trim().split(/\s+/).filter(Boolean)`. -/
def pids (r : CommandResult) : List String :=
  (wsTokens r.stdout.data).map String.mk

/-- JavaScript `s || "none"` on a trimmed stdout. -/
def orNone (s : String) : String := if s = "" then "none" else s

/-- Maximum total wait of the port poll window, in milliseconds. -/
def maxMs : Nat := 2000

/-- Poll interval of the port poll window, in milliseconds. -/
def intervalMs : Nat := 100

/-- Number of poll rounds of the `while (elapsed <= maxMs)` loop with
`elapsed` starting at 0 and advancing by `intervalMs`: rounds happen at
elapsed 0, 100, ..., 2000. -/
def pollRounds : Nat := maxMs / intervalMs + 1

/-- The probe effects of one fan-out round over the port list. -/
def portQueryEffects (ports : List String) : List Effect :=
  ports.map (fun p => Effect.runCmd (lsofCmd p))

/-- Poll loop of `verifyPortsReleased` (`src/core/executor.ts` lines 30
to 48), structurally recursive on the number of remaining rounds. Each
round issues one concurrent probe per port at the same logical instant;
if no port is busy the loop sleeps a 150 ms cooldown and reports the
ports free, otherwise it sleeps the interval and polls again. When the
window elapses, one final fan-out builds the failure detail naming every
port with its remaining PIDs and a manual remediation command. -/
def pollLoop (env : Env) (ports : List String) : Nat → Nat → Bool × String × Nat × List Effect
  | 0, t =>
    let remaining := ports.map (fun p => env.run t (lsofCmd p))
    let detail := joinSep ", "
      ((ports.zip remaining).map (fun pr => pr.1 ++ ": " ++ orNone (trimJS pr.2.stdout)))
    (false, "remaining pid(s) -> " ++ detail ++ ". Try: lsof -ti :<port> | xargs kill -9",
     t + 1, portQueryEffects ports)
  | fuel + 1, t =>
    let checks := ports.map (fun p => env.run t (lsofCmd p))
    let busy := (ports.zip checks).filter (fun pr => !(pids pr.2).isEmpty)
    if busy.isEmpty then
      (true, "ports confirmed free", t + 1, portQueryEffects ports ++ [Effect.sleep 150])
    else
      let tail := pollLoop env ports fuel (t + 1)
      (tail.1, tail.2.1, tail.2.2.1,
       portQueryEffects ports ++ Effect.sleep intervalMs :: tail.2.2.2)

/-- Embedding of `verifyPortsReleased` (`src/core/executor.ts` lines 21
to 49). -/
def verifyPortsReleased (env : Env) (commands : List String) (t : Nat) :
    Bool × String × Nat × List Effect :=
  pollLoop env (extractPorts commands) pollRounds t

/-- Sequential command loop of `executeSteps` (`src/core/executor.ts`
lines 91 to 105): run the step's commands in order, record the
transcript entry of each, and stop at the first failure. Returns the
failure flag, the transcript entries, the next instant and the
effects. -/
def runCommands (env : Env) : Nat → List String → Bool × List String × Nat × List Effect
  | t, [] => (false, [], t, [])
  | t, command :: rest =>
    let result := env.run t command
    let entry := trimJS ("$ " ++ command ++ "\n" ++ result.stdout ++ result.stderr)
    if result.success then
      let tail := runCommands env (t + 1) rest
      (tail.1, entry :: tail.2.1, tail.2.2.1, Effect.runCmd command :: tail.2.2.2)
    else (true, [entry], t + 1, [Effect.runCmd command])

/-- The failure classifier of the executor: a lock-style error pattern
(`/EPERM|EBUSY|EACCES/`) in the combined output of a node-subsystem or
node-phase step yields the remediation message, anything else the
generic one. -/
def classifyFailure (step : FixStep) (combined : String) : String :=
  if (strContains combined "EPERM" ∨ strContains combined "EBUSY" ∨
      strContains combined "EACCES")
     ∧ (step.subsystem = Subsystem.node ∨ step.phase = Phase.node) then
    "Permission/lock error (EPERM/EBUSY). Close your IDE, dev servers, or file watchers and retry."
  else "One or more commands failed"

/-- Post-gate body of the per-step loop of `executeSteps`: the step
enters the transient `running` state, a destructive step (or one with
pre-declared snapshot paths) is snapshotted first, the commands run in
order stopping at the first failure, a `ports-cleanup` step whose
commands all succeeded additionally undergoes the port-liveness
post-check, and the step ends `success` or `failed` with its transcript
and classified error. -/
def execStepBody (env : Env) (ctx : CommandContext) (snapshotDir : String)
    (t : Nat) (step : FixStep) : FixStep × Nat × List Effect :=
  let snapBranch : Option (List String) × List Effect :=
    if step.destructive ∨ ¬ (step.snapshotPaths.getD []).isEmpty then
      let candidates :=
        if step.destructive then snapshotCandidates step else step.snapshotPaths.getD []
      let s := snapshotPathsForStep env ctx.cwd (pathJoin snapshotDir ctx.runId) step.id candidates
      (some s.1, s.2)
    else (step.snapshotPaths, [])
  let r := runCommands env t step.commands
  if ¬ r.1 ∧ step.id = "ports-cleanup" then
    let pc := verifyPortsReleased env step.commands r.2.2.1
    if ¬ pc.1 then
      ({ step with
          status := StepStatus.failed,
          error := some pc.2.1,
          output := some (joinSep "\n\n" r.2.1),
          snapshotPaths := snapBranch.1 },
       pc.2.2.1, snapBranch.2 ++ r.2.2.2 ++ pc.2.2.2)
    else
      ({ step with
          status := StepStatus.success,
          output := some (joinSep "\n\n" (r.2.1 ++ [pc.2.1])),
          snapshotPaths := snapBranch.1 },
       pc.2.2.1, snapBranch.2 ++ r.2.2.2 ++ pc.2.2.2)
  else
    if r.1 then
      ({ step with
          status := StepStatus.failed,
          error := some (classifyFailure step (joinSep " " r.2.1)),
          output := some (joinSep "\n\n" r.2.1),
          snapshotPaths := snapBranch.1 },
       r.2.2.1, snapBranch.2 ++ r.2.2.2)
    else
      ({ step with
          status := StepStatus.success,
          output := some (joinSep "\n\n" r.2.1),
          snapshotPaths := snapBranch.1 },
       r.2.2.1, snapBranch.2 ++ r.2.2.2)

/-- One iteration of the step loop of `executeSteps`
(`src/core/executor.ts` lines 54 to 128): a dry mode (`doctor`, `plan`
or the dry-run flag) records the step with its pre-assigned status and
does nothing; an unauthorized destructive step is gated — prompted when
interactive, otherwise proposed with the mode-appropriate reason; an
authorized or non-destructive step runs the body. -/
def execStep (env : Env) (ctx : CommandContext) (snapshotDir : String)
    (t : Nat) (step : FixStep) : FixStep × Nat × List Effect :=
  if ctx.command = Command.doctor ∨ ctx.command = Command.plan ∨ ctx.flags.dryRun then
    ({ step with status :=
        if step.status = StepStatus.proposed then StepStatus.proposed else StepStatus.planned },
     t, [])
  else if step.destructive ∧ ¬ canAutoRunDestructive ctx then
    if shouldPromptForDestructive ctx step then
      if env.confirm ("Run destructive step: " ++ step.title ++ "?") then
        execStepBody env ctx snapshotDir t step
      else
        ({ step with
            status := StepStatus.proposed,
            proposedReason := some "Needs explicit approval" }, t, [])
    else
      ({ step with
          status := StepStatus.proposed,
          proposedReason := some
            (if ctx.interactive then "Needs --deep or --approve"
             else "Non-interactive mode: destructive step skipped") }, t, [])
  else execStepBody env ctx snapshotDir t step

/-- Embedding of `executeSteps`: every step of the plan is processed in
order by `execStep`, an earlier step's outcome never stopping the loop;
the outputs, the final instant and the concatenated effects are
returned. -/
def executeSteps (env : Env) (ctx : CommandContext) (snapshotDir : String) :
    Nat → List FixStep → List FixStep × Nat × List Effect
  | t, [] => ([], t, [])
  | t, step :: rest =>
    let head := execStep env ctx snapshotDir t step
    let tail := executeSteps env ctx snapshotDir head.2.1 rest
    (head.1 :: tail.1, tail.2.1, head.2.2 ++ tail.2.2)

/-- A successful shell result with empty output. -/
def okResult : CommandResult := { success := true, code := 0, stdout := "", stderr := "" }

/-- A shell result whose stdout reports one live PID. -/
def busyResult : CommandResult := { success := true, code := 0, stdout := "4242\n", stderr := "" }

/-- A report step recording a snapshot whose encoded basename embeds a
relative-traversal sequence, as in the repository's own SEC-002
reproduction. -/
def traversalStep : FixStep :=
  { id := "test-step", title := "test", subsystem := Subsystem.node, phase := Phase.node,
    rationale := "test", commands := [], destructive := false, irreversible := false,
    undoable := true, undoHints := [],
    snapshotPaths := some ["/work/.autofix/snapshots/r1/test-step/.._.._tmp_evil"],
    status := StepStatus.success, output := none, error := none, proposedReason := none }

/-- Environment in which every file exists, every restore attempt
succeeds, and the persisted report holds exactly `traversalStep`. -/
def traversalEnv : Env :=
  { run := fun _ _ => okResult, fileExists := fun _ => true, restoreOk := fun _ _ => true,
    confirm := fun _ => false,
    readReport := fun _ => some { runId := "r1", steps := [traversalStep] } }

/-- A step with recorded snapshot paths that is nevertheless marked not
undoable. -/
def notUndoableStep : FixStep :=
  { id := "cache-step", title := "cache", subsystem := Subsystem.node, phase := Phase.node,
    rationale := "cache", commands := [], destructive := false, irreversible := false,
    undoable := false, undoHints := [],
    snapshotPaths := some ["/work/.autofix/snapshots/r1/cache-step/x.json"],
    status := StepStatus.success, output := none, error := none, proposedReason := none }

/-- Environment with no files, all-successful empty shell results, a
declining confirmation and no report. -/
def plainEnv : Env :=
  { run := fun _ _ => okResult, fileExists := fun _ => false, restoreOk := fun _ _ => true,
    confirm := fun _ => false, readReport := fun _ => none }

/-- A destructive step carrying one command, used to exercise the
authorization gate. -/
def destructiveStep : FixStep :=
  { id := "node-deep-cleanup", title := "Remove node_modules", subsystem := Subsystem.node,
    phase := Phase.node, rationale := "deep cleanup", commands := ["npm install"],
    destructive := true, irreversible := false, undoable := true, undoHints := [],
    snapshotPaths := none, status := StepStatus.planned, output := none, error := none,
    proposedReason := none }

/-- A non-interactive run context with neither authorization flag and
no dry-run flag. -/
def nonInteractiveCtx : CommandContext :=
  { command := Command.run, cwd := "/work", runId := "r1",
    flags := { dryRun := false, deep := false, approve := false, verbose := false },
    interactive := false }

/-- A plan-mode context. -/
def planCtx : CommandContext :=
  { command := Command.plan, cwd := "/work", runId := "r1",
    flags := { dryRun := false, deep := false, approve := false, verbose := false },
    interactive := true }

/-- The ports-cleanup step the plan builder emits for port 3000. -/
def portsStep : FixStep :=
  { id := "ports-cleanup", title := "Kill processes using configured ports",
    subsystem := Subsystem.meta, phase := Phase.ports,
    rationale := "Port conflict cleanup before subsystem repair.",
    commands := ["lsof -ti :3000 | xargs kill -9"],
    destructive := false, irreversible := false, undoable := false, undoHints := [],
    snapshotPaths := none, status := StepStatus.planned, output := none, error := none,
    proposedReason := none }

/-- Environment in which port 3000 is held by PID 4242 at every
instant while every other command succeeds silently. -/
def busyEnv : Env :=
  { run := fun _ c => if c = lsofCmd "3000" then busyResult else okResult,
    fileExists := fun _ => false, restoreOk := fun _ _ => true,
    confirm := fun _ => false, readReport := fun _ => none }

/-- A configuration sample with one safe and two unsafe cache
directories. -/
def sampleConfig : Config :=
  { pythonTools := { format := ["ruff format"], lint := ["ruff check ."], test := ["pytest -q"] },
    nodeCachesDirectories := [".turbo", "bad;dir", "../escape"] }

/-- Pattern-lead search succeeds on the pattern followed by anything. -/
theorem leadsWith_self_append (p r : List Char) : leadsWith p (p ++ r) = true := by
  induction p with
  | nil => rfl
  | cons c cs ih => simpa [leadsWith] using ih

/-- The empty pattern is a substring of every list. -/
theorem hasSubList_nil (l : List Char) : hasSubList [] l = true := by
  cases l <;> simp [hasSubList, leadsWith, List.isEmpty]

/-- A pattern is a substring of itself followed by anything. -/
theorem hasSubList_self_append (p r : List Char) : hasSubList p (p ++ r) = true := by
  cases p with
  | nil => exact hasSubList_nil r
  | cons c cs =>
    have h := leadsWith_self_append (c :: cs) r
    simp only [List.cons_append] at h
    simp [hasSubList, h]

/-- Substring search is stable under prepending. -/
theorem hasSubList_append_left (p x r : List Char) (h : hasSubList p r = true) :
    hasSubList p (x ++ r) = true := by
  induction x with
  | nil => simpa using h
  | cons c cs ih => simp [hasSubList, ih]

/-- Pattern-lead search is stable under appending. -/
theorem leadsWith_append (p l r : List Char) (h : leadsWith p l = true) :
    leadsWith p (l ++ r) = true := by
  induction p generalizing l with
  | nil => rfl
  | cons c cs ih =>
    cases l with
    | nil => simp [leadsWith] at h
    | cons d ds =>
      simp only [leadsWith] at h ⊢
      by_cases hc : c = d
      · rw [if_pos hc] at h ⊢
        exact ih ds h
      · rw [if_neg hc] at h
        cases h

/-- Substring search is stable under appending. -/
theorem hasSubList_append_right (p l r : List Char) (h : hasSubList p l = true) :
    hasSubList p (l ++ r) = true := by
  induction l with
  | nil =>
    simp only [hasSubList, List.isEmpty_eq_true] at h
    subst h
    exact hasSubList_nil r
  | cons c cs ih =>
    simp only [hasSubList, Bool.or_eq_true] at h ⊢
    rcases h with h | h
    · exact Or.inl (leadsWith_append _ _ _ h)
    · exact Or.inr (ih h)

/-- Every part is a substring of a separator join of its list. -/
theorem joinSep_contains (sep x : String) (parts : List String) (h : x ∈ parts) :
    strContains (joinSep sep parts) x = true := by
  induction parts with
  | nil => cases h
  | cons y rest ih =>
    rcases List.mem_cons.1 h with rfl | h
    · cases rest with
      | nil => simpa [joinSep, strContains] using hasSubList_self_append x.data []
      | cons z zs =>
        simp only [joinSep, strContains, String.data_append, List.append_assoc]
        exact hasSubList_self_append x.data _
    · cases rest with
      | nil => cases h
      | cons z zs =>
        simp only [joinSep, strContains, String.data_append] at ih ⊢
        exact hasSubList_append_left _ _ _ (ih h)

/-- Zipping a list with its own image collapses to one map. -/
theorem zipMapSelf {α β γ : Type} (f : α → β) (g : α × β → γ) (l : List α) :
    (l.zip (l.map f)).map g = l.map (fun a => g (a, f a)) := by
  induction l with
  | nil => rfl
  | cons a rest ih => simp [ih]

/-- C9: the claim states `isSafePath("")` returns true; it returns
false, because the anchored character-class regex uses the one-or-more
quantifier and so requires at least one character. -/
theorem c9_isSafePath_empty_not_true : ¬ isSafePath "" = true := by decide

/-- C9 (amended): `isSafePath` applied to the empty string returns
false — the Validator itself rejects the empty string, rather than
leaving that rejection to callers. -/
theorem c9_isSafePath_empty_false : isSafePath "" = false := by decide

/-- C1: on the repository's own SEC-002 reproduction input — a recorded
snapshot path whose basename `.._.._tmp_evil` decodes to a target
escaping the project root — the embedded `undoLatest` records the
escaped target `/tmp/evil` as restored (not failed, no message about a
blocked traversal) and performs the copy onto the escaped target. -/
theorem c1_undo_traversal_writes_outside_root :
    isUnder "/work" "/tmp/evil" = false ∧
    (undoLatest traversalEnv "latest.json" "/work").1.2 =
      [{ stepId := "test-step",
         snapshotPaths := ["/work/.autofix/snapshots/r1/test-step/.._.._tmp_evil"],
         restored := ["/tmp/evil"], skipped := [], missingSnapshot := [], failed := [],
         nextBestAction := none }] ∧
    Effect.copy "/work/.autofix/snapshots/r1/test-step/.._.._tmp_evil" "/tmp/evil" ∈
      (undoLatest traversalEnv "latest.json" "/work").2 := by
  decide

/-- C7: a step that is not marked undoable, or has no recorded snapshot
paths, is recorded by the undo engine as wholly skipped with reason
"not undoable or no snapshot", with empty restored, missing-snapshot
and failed lists, and no disk effect is performed for it. -/
theorem c7_undo_skips_non_undoable (env : Env) (cwd : String) (step : FixStep)
    (h : step.undoable = false ∨ step.snapshotPaths = none ∨ step.snapshotPaths = some []) :
    undoStep env cwd step =
      ({ stepId := step.id, snapshotPaths := step.snapshotPaths.getD [],
         restored := [], skipped := ["not undoable or no snapshot"],
         missingSnapshot := [], failed := [], nextBestAction := nextHint step }, []) := by
  unfold undoStep
  rcases h with h | h | h <;> simp [h]

/-- C7 witness: a concrete step with recorded snapshot paths but
`undoable = false` is never restored. -/
theorem c7_undo_skips_non_undoable_witness :
    undoStep plainEnv "/work" notUndoableStep =
      ({ stepId := "cache-step",
         snapshotPaths := ["/work/.autofix/snapshots/r1/cache-step/x.json"],
         restored := [], skipped := ["not undoable or no snapshot"],
         missingSnapshot := [], failed := [], nextBestAction := none }, []) :=
  c7_undo_skips_non_undoable plainEnv "/work" notUndoableStep (Or.inl rfl)

/-- C6: the claim states every cache directory surviving sanitization
satisfies `isSafePath`; the sanitizer instead filters with the broader
command character class, so `*` — rejected by `isSafePath` — survives. -/
theorem c6_sanitize_keeps_non_isSafePath_directory :
    (sanitizeConfig
        { pythonTools := { format := [], lint := [], test := [] },
          nodeCachesDirectories := ["*"] }).nodeCachesDirectories = ["*"] ∧
    isSafePath "*" = false := by
  decide

/-- C6 (amended): every cache-directory entry surviving sanitization of
`node.caches.directories` matches the sanitizer's character class
(letters, digits, dot, underscore, dash, slash, at, colon, equals,
star, whitespace) and does not contain the substring `..`, and every
entry failing that check is dropped from the list. -/
theorem c6_sanitize_directories_spec (config : Config) :
    (∀ d ∈ (sanitizeConfig config).nodeCachesDirectories,
        matchesAll1 safeCmdChar d = true ∧ hasDotDot d.data = false ∧
        d ∈ config.nodeCachesDirectories) ∧
    (∀ d ∈ config.nodeCachesDirectories,
        matchesAll1 safeCmdChar d = true → hasDotDot d.data = false →
        d ∈ (sanitizeConfig config).nodeCachesDirectories) := by
  constructor
  · intro d hd
    simp only [sanitizeConfig, List.mem_filter, decide_eq_true_eq, Bool.not_eq_true] at hd
    exact ⟨hd.2.1, hd.2.2, hd.1⟩
  · intro d hd h1 h2
    simp only [sanitizeConfig, List.mem_filter, decide_eq_true_eq, Bool.not_eq_true]
    exact ⟨hd, h1, h2⟩

/-- The dry-mode branch of `execStep`: with command `doctor` or `plan`
or the dry-run flag, the step keeps its pre-assigned status and nothing
happens. -/
theorem execStep_dry (env : Env) (ctx : CommandContext) (dir : String)
    (t : Nat) (step : FixStep)
    (h : ctx.command = Command.doctor ∨ ctx.command = Command.plan ∨ ctx.flags.dryRun = true) :
    execStep env ctx dir t step =
      ({ step with status :=
          if step.status = StepStatus.proposed then StepStatus.proposed
          else StepStatus.planned }, t, []) := by
  unfold execStep
  rw [if_pos h]

/-- C4: in a dry mode (`doctor`, `plan` or the dry-run flag),
`executeSteps` maps every step to itself with status `planned` (or
`proposed` when the planner pre-flagged it `proposed`), advances no
logical instant and performs no effect — in particular it runs no shell
command and creates no snapshot — and every returned step has status
`planned` or `proposed`. -/
theorem c4_dry_modes_no_execution (env : Env) (ctx : CommandContext) (dir : String)
    (h : ctx.command = Command.doctor ∨ ctx.command = Command.plan ∨ ctx.flags.dryRun = true)
    (t : Nat) (steps : List FixStep) :
    executeSteps env ctx dir t steps =
      (steps.map (fun s => { s with status :=
          if s.status = StepStatus.proposed then StepStatus.proposed
          else StepStatus.planned }), t, []) ∧
    ∀ s ∈ (executeSteps env ctx dir t steps).1,
      s.status = StepStatus.planned ∨ s.status = StepStatus.proposed := by
  have key : ∀ (u : Nat) (l : List FixStep),
      executeSteps env ctx dir u l =
        (l.map (fun s => { s with status :=
            if s.status = StepStatus.proposed then StepStatus.proposed
            else StepStatus.planned }), u, []) := by
    intro u l
    induction l generalizing u with
    | nil => rfl
    | cons s rest ih =>
      simp only [executeSteps, execStep_dry env ctx dir u s h, ih u, List.map_cons,
        List.nil_append]
  refine ⟨key t steps, ?_⟩
  rw [key t steps]
  intro s hs
  rcases List.mem_map.1 hs with ⟨u, _, rfl⟩
  by_cases h2 : u.status = StepStatus.proposed <;> simp [h2]

/-- C4 witness: in plan mode a destructive step and a ports step both
stay `planned`, with no effects and no instant consumed. -/
theorem c4_dry_modes_no_execution_witness :
    executeSteps plainEnv planCtx "/snap" 0 [destructiveStep, portsStep] =
      ([destructiveStep, portsStep].map (fun s => { s with status :=
          if s.status = StepStatus.proposed then StepStatus.proposed
          else StepStatus.planned }), 0, []) ∧
    ∀ s ∈ (executeSteps plainEnv planCtx "/snap" 0 [destructiveStep, portsStep]).1,
      s.status = StepStatus.planned ∨ s.status = StepStatus.proposed :=
  c4_dry_modes_no_execution plainEnv planCtx "/snap" (Or.inr (Or.inl rfl)) 0
    [destructiveStep, portsStep]

/-- C3: a destructive step in a non-dry, non-interactive run with
neither the deep nor the approve flag ends `proposed` with reason
"Non-interactive mode: destructive step skipped", consumes no instant
and performs no effect — no snapshot is created and no command of the
step is executed. -/
theorem c3_noninteractive_destructive_gate (env : Env) (ctx : CommandContext)
    (dir : String) (t : Nat) (step : FixStep)
    (hd : step.destructive = true)
    (h1 : ¬ ctx.command = Command.doctor) (h2 : ¬ ctx.command = Command.plan)
    (h3 : ctx.flags.dryRun = false) (h4 : ctx.flags.deep = false)
    (h5 : ctx.flags.approve = false) (h6 : ctx.interactive = false) :
    execStep env ctx dir t step =
      ({ step with
          status := StepStatus.proposed,
          proposedReason := some "Non-interactive mode: destructive step skipped" },
       t, []) := by
  unfold execStep
  rw [if_neg (by simp [h1, h2, h3])]
  rw [if_pos (by simp [hd, canAutoRunDestructive, h4, h5])]
  rw [if_neg (by simp [shouldPromptForDestructive, h6])]
  simp [h6]

/-- C3 witness: the concrete destructive step under the concrete
non-interactive context is gated with the non-interactive reason. -/
theorem c3_noninteractive_destructive_gate_witness :
    execStep plainEnv nonInteractiveCtx "/snap" 0 destructiveStep =
      ({ destructiveStep with
          status := StepStatus.proposed,
          proposedReason := some "Non-interactive mode: destructive step skipped" },
       0, []) :=
  c3_noninteractive_destructive_gate plainEnv nonInteractiveCtx "/snap" 0 destructiveStep
    rfl (by decide) (by decide) rfl rfl rfl rfl

/-- The post-gate body never changes a step's identity. -/
theorem execStepBody_id (env : Env) (ctx : CommandContext) (dir : String)
    (t : Nat) (step : FixStep) :
    (execStepBody env ctx dir t step).1.id = step.id := by
  simp only [execStepBody]
  split
  · split <;> rfl
  · split <;> rfl

/-- `execStep` never changes a step's identity. -/
theorem execStep_id (env : Env) (ctx : CommandContext) (dir : String)
    (t : Nat) (step : FixStep) :
    (execStep env ctx dir t step).1.id = step.id := by
  simp only [execStep]
  split
  · rfl
  split
  · split
    · split
      · exact execStepBody_id env ctx dir t step
      · rfl
    · rfl
  · exact execStepBody_id env ctx dir t step

/-- The post-gate body ends a step `success` or `failed`. -/
theorem execStepBody_status (env : Env) (ctx : CommandContext) (dir : String)
    (t : Nat) (step : FixStep) :
    (execStepBody env ctx dir t step).1.status = StepStatus.success ∨
    (execStepBody env ctx dir t step).1.status = StepStatus.failed := by
  simp only [execStepBody]
  split
  · split
    · exact Or.inr rfl
    · exact Or.inl rfl
  · split
    · exact Or.inr rfl
    · exact Or.inl rfl

/-- `execStep` returns a step whose status is `planned`, `proposed`,
`success` or `failed` — never the transient `running` and never
`skipped` or `partialDone`. -/
theorem execStep_status (env : Env) (ctx : CommandContext) (dir : String)
    (t : Nat) (step : FixStep) :
    (execStep env ctx dir t step).1.status = StepStatus.planned ∨
    (execStep env ctx dir t step).1.status = StepStatus.proposed ∨
    (execStep env ctx dir t step).1.status = StepStatus.success ∨
    (execStep env ctx dir t step).1.status = StepStatus.failed := by
  simp only [execStep]
  split
  · by_cases h : step.status = StepStatus.proposed
    · right; left; simp [h]
    · left; simp [h]
  split
  · split
    · split
      · rcases execStepBody_status env ctx dir t step with h | h
        · exact Or.inr (Or.inr (Or.inl h))
        · exact Or.inr (Or.inr (Or.inr h))
      · exact Or.inr (Or.inl rfl)
    · exact Or.inr (Or.inl rfl)
  · rcases execStepBody_status env ctx dir t step with h | h
    · exact Or.inr (Or.inr (Or.inl h))
    · exact Or.inr (Or.inr (Or.inr h))

/-- C10: `executeSteps` returns exactly one entry per input step in the
input order (their identities map one-to-one), and every returned step
has status `planned`, `proposed`, `success` or `failed` — the transient
`running` never appears, and an earlier step's outcome never prevents a
later step from being processed. -/
theorem c10_executeSteps_shape (env : Env) (ctx : CommandContext) (dir : String)
    (t : Nat) (steps : List FixStep) :
    (executeSteps env ctx dir t steps).1.map FixStep.id = steps.map FixStep.id ∧
    ∀ s ∈ (executeSteps env ctx dir t steps).1,
      s.status = StepStatus.planned ∨ s.status = StepStatus.proposed ∨
      s.status = StepStatus.success ∨ s.status = StepStatus.failed := by
  induction steps generalizing t with
  | nil => exact ⟨rfl, by intro s hs; cases hs⟩
  | cons s rest ih =>
    obtain ⟨ih1, ih2⟩ := ih (execStep env ctx dir t s).2.1
    constructor
    · simp only [executeSteps, List.map_cons]
      rw [execStep_id, ih1]
    · intro u hu
      simp only [executeSteps, List.mem_cons] at hu
      rcases hu with rfl | hu
      · exact execStep_status env ctx dir t s
      · exact ih2 u hu

/-- C10 witness: a concrete two-step run (a command that fails, then
one that succeeds) returns both steps in order with terminal
statuses. -/
theorem c10_executeSteps_shape_witness :
    (executeSteps busyEnv nonInteractiveCtx "/snap" 0 [portsStep]).1.map FixStep.id =
      [portsStep].map FixStep.id ∧
    ∀ s ∈ (executeSteps busyEnv nonInteractiveCtx "/snap" 0 [portsStep]).1,
      s.status = StepStatus.planned ∨ s.status = StepStatus.proposed ∨
      s.status = StepStatus.success ∨ s.status = StepStatus.failed :=
  c10_executeSteps_shape busyEnv nonInteractiveCtx "/snap" 0 [portsStep]

/-- C6 witness: on a sample configuration the safe directory survives
and the metacharacter and traversal entries are dropped. -/
theorem c6_sanitize_directories_spec_witness :
    (".turbo" ∈ sampleConfig.nodeCachesDirectories ∧
      matchesAll1 safeCmdChar ".turbo" = true ∧ hasDotDot ".turbo".data = false ∧
      ".turbo" ∈ (sanitizeConfig sampleConfig).nodeCachesDirectories) ∧
    (∀ d ∈ (sanitizeConfig sampleConfig).nodeCachesDirectories,
        matchesAll1 safeCmdChar d = true ∧ hasDotDot d.data = false ∧
        d ∈ sampleConfig.nodeCachesDirectories) :=
  ⟨⟨by decide, by decide, by decide,
     (c6_sanitize_directories_spec sampleConfig).2 ".turbo" (by decide) (by decide) (by decide)⟩,
   (c6_sanitize_directories_spec sampleConfig).1⟩

/-- The tokenizer worker ignores an all-whitespace input. -/
theorem wsTokensGo_spaces (t : List Char) (h : ∀ c ∈ t, isSpaceJS c = true) (acc : List Char) :
    wsTokensGo acc t = wsTokensGo acc [] := by
  induction t generalizing acc with
  | nil => rfl
  | cons c t ih =>
    have hc : isSpaceJS c = true := h c (List.mem_cons_self c t)
    have ht : ∀ x ∈ t, isSpaceJS x = true := fun x hx => h x (List.mem_cons_of_mem c hx)
    by_cases ha : acc.isEmpty
    · simp only [wsTokensGo, hc, if_true, ha, ite_true]
      rw [ih ht []]
      simp [wsTokensGo, ha]
    · simp only [wsTokensGo, hc, if_true, ha, ite_false]
      rw [ih ht []]
      simp [wsTokensGo, ha]

/-- The tokenizer worker ignores trailing whitespace. -/
theorem wsTokensGo_append_spaces (l t : List Char) (h : ∀ c ∈ t, isSpaceJS c = true)
    (acc : List Char) : wsTokensGo acc (l ++ t) = wsTokensGo acc l := by
  induction l generalizing acc with
  | nil => simpa using wsTokensGo_spaces t h acc
  | cons c l ih =>
    by_cases hc : isSpaceJS c <;> by_cases ha : acc.isEmpty <;>
      simp [wsTokensGo, hc, ha, ih]

/-- The tokenizer ignores leading whitespace. -/
theorem wsTokens_prepend_spaces (t l : List Char) (h : ∀ c ∈ t, isSpaceJS c = true) :
    wsTokensGo [] (t ++ l) = wsTokensGo [] l := by
  induction t with
  | nil => rfl
  | cons c t ih =>
    have hc : isSpaceJS c = true := h c (List.mem_cons_self c t)
    simp only [List.cons_append, wsTokensGo, hc, if_true, List.isEmpty_nil, ite_true]
    exact ih (fun x hx => h x (List.mem_cons_of_mem c hx))

/-- Tokenizing the trimmed string yields the same tokens as tokenizing
the string itself: trimming only removes leading and trailing
whitespace. -/
theorem wsTokens_trimJS (s : String) : wsTokens (trimJS s).data = wsTokens s.data := by
  show wsTokensGo [] (trimJS s).data = wsTokensGo [] s.data
  have hdata : (trimJS s).data = ((s.data.dropWhile isSpaceJS).reverse.dropWhile isSpaceJS).reverse :=
    rfl
  have hsplit : s.data = s.data.takeWhile isSpaceJS ++ s.data.dropWhile isSpaceJS :=
    (List.takeWhile_append_dropWhile isSpaceJS s.data).symm
  have hm : s.data.dropWhile isSpaceJS =
      ((s.data.dropWhile isSpaceJS).reverse.dropWhile isSpaceJS).reverse ++
        ((s.data.dropWhile isSpaceJS).reverse.takeWhile isSpaceJS).reverse := by
    conv_lhs =>
      rw [← List.reverse_reverse (s.data.dropWhile isSpaceJS),
        ← List.takeWhile_append_dropWhile isSpaceJS (s.data.dropWhile isSpaceJS).reverse,
        List.reverse_append]
  rw [hdata]
  conv_rhs => rw [hsplit]
  rw [wsTokens_prepend_spaces _ _ (fun c hc => List.mem_takeWhile_imp hc)]
  conv_rhs => rw [hm]
  rw [wsTokensGo_append_spaces _ _ (fun c hc => List.mem_takeWhile_imp (List.mem_reverse.mp hc))]

/-- The tokenizer worker never returns an empty list from a nonempty
accumulator. -/
theorem wsTokensGo_ne_nil (l : List Char) (acc : List Char) (h : ¬ acc.isEmpty) :
    wsTokensGo acc l ≠ [] := by
  induction l generalizing acc with
  | nil => simp [wsTokensGo, h]
  | cons c l ih =>
    by_cases hc : isSpaceJS c
    · simp only [wsTokensGo, hc, if_true, h, ite_false]
      exact List.cons_ne_nil _ _
    · simp only [wsTokensGo, hc, if_false]
      exact ih (c :: acc) (by simp)

/-- A list with a non-whitespace character has at least one token. -/
theorem wsTokens_ne_nil (l : List Char) (h : ∃ c ∈ l, ¬ isSpaceJS c = true) :
    wsTokens l ≠ [] := by
  induction l with
  | nil => rcases h with ⟨c, hc, _⟩; cases hc
  | cons c l ih =>
    by_cases hc : isSpaceJS c
    · have : ∃ x ∈ l, ¬ isSpaceJS x = true := by
        rcases h with ⟨x, hx, hxs⟩
        rcases List.mem_cons.mp hx with rfl | hx
        · exact absurd hc hxs
        · exact ⟨x, hx, hxs⟩
      show wsTokensGo [] (c :: l) ≠ []
      simp only [wsTokensGo, hc, if_true, List.isEmpty_nil, ite_true]
      exact ih this
    · show wsTokensGo [] (c :: l) ≠ []
      simp only [wsTokensGo, hc, if_false]
      exact wsTokensGo_ne_nil l [c] (by simp)

/-- An all-whitespace string trims to nothing. -/
theorem trimJS_data_eq_nil (s : String) (h : ∀ c ∈ s.data, isSpaceJS c = true) :
    (trimJS s).data = [] := by
  have h1 : s.data.dropWhile isSpaceJS = [] := List.dropWhile_eq_nil_iff.mpr h
  show ((trimL s.data).reverse.dropWhile isSpaceJS).reverse = []
  rw [trimL, h1]
  rfl

/-- An empty trim forces an empty token list. -/
theorem wsTokens_nil_of_trim_nil (s : String) (h : (trimJS s).data = []) :
    wsTokens s.data = [] := by
  rw [← wsTokens_trimJS s, h]
  rfl

/-- C2: the claim describes the safe-true condition correctly, but
`isSafeCommand` rejects the empty or all-whitespace command with a
third reason, "Empty command", that the claim does not list. This
exhibits that case. -/
theorem c2_empty_command_reason :
    (isSafeCommand "").safe = false ∧
    (isSafeCommand "").reason = "Empty command" ∧
    ¬ (isSafeCommand "").reason = "contains shell metacharacters" ∧
    ¬ leadsWith "unrecognized tool".data (isSafeCommand "").reason.data = true := by
  decide

/-- C2 (amended): `isSafeCommand cmd` is safe exactly when every
character of `cmd` lies in the command character class and the first
whitespace-delimited token, after stripping leading path components, is
a known tool binary; when it is unsafe the reason is "Empty command"
for a whitespace-only command, "contains shell metacharacters" when a
character falls outside the class, and "unrecognized tool '<name>'"
otherwise. -/
theorem c2_isSafeCommand_spec (cmd : String) :
    ((isSafeCommand cmd).safe = true ↔
      ((∀ c ∈ cmd.data, safeCmdChar c = true) ∧
        ∃ tok rest, wsTokens cmd.data = tok :: rest ∧
          KNOWN_TOOL_BINARIES.contains (afterLastSlash (String.mk tok)) = true)) ∧
    ((isSafeCommand cmd).safe = false →
      ((trimJS cmd).data = [] ∧ (isSafeCommand cmd).reason = "Empty command") ∨
      (cmd.data ≠ [] ∧ ¬ (∀ c ∈ cmd.data, safeCmdChar c = true) ∧
        (isSafeCommand cmd).reason = "contains shell metacharacters") ∨
      (∃ tok rest, wsTokens cmd.data = tok :: rest ∧
        KNOWN_TOOL_BINARIES.contains (afterLastSlash (String.mk tok)) = false ∧
        (isSafeCommand cmd).reason =
          "unrecognized tool \x27" ++ afterLastSlash (String.mk tok) ++ "\x27")) := by
  by_cases hE : (trimJS cmd).data.isEmpty
  · have hnil : (trimJS cmd).data = [] := List.isEmpty_iff.mp hE
    have htok : wsTokens cmd.data = [] := wsTokens_nil_of_trim_nil cmd hnil
    have hval : isSafeCommand cmd = { safe := false, reason := "Empty command" } := by
      unfold isSafeCommand
      rw [if_pos hE]
    constructor
    · rw [hval]
      constructor
      · intro h
        cases h
      · rintro ⟨_, tok, rest, habs, _⟩
        rw [htok] at habs
        cases habs
    · intro _
      exact Or.inl ⟨hnil, by rw [hval]⟩
  · have hne : (trimJS cmd).data ≠ [] := fun h => hE (List.isEmpty_iff.mpr h)
    have hcmdne : cmd.data ≠ [] := by
      intro h
      apply hne
      apply trimJS_data_eq_nil
      rw [h]
      intro c hc
      cases hc
    have hsome : ∃ c ∈ cmd.data, ¬ isSpaceJS c = true := by
      by_contra hall
      push_neg at hall
      have : ∀ c ∈ cmd.data, isSpaceJS c = true := fun c hc => hall c hc
      exact hne (trimJS_data_eq_nil cmd this)
    have htokne : wsTokens cmd.data ≠ [] := wsTokens_ne_nil cmd.data hsome
    obtain ⟨tok, rest, htok⟩ : ∃ tok rest, wsTokens cmd.data = tok :: rest := by
      cases h : wsTokens cmd.data with
      | nil => exact absurd h htokne
      | cons a b => exact ⟨a, b, rfl⟩
    have hfirst : firstToken cmd = String.mk tok := by
      unfold firstToken
      rw [show wsTokens (trimJS cmd).data = wsTokens cmd.data from wsTokens_trimJS cmd, htok]
    by_cases hchars : matchesAll1 safeCmdChar cmd
    · have hall : ∀ c ∈ cmd.data, safeCmdChar c = true := by
        have := (of_decide_eq_true hchars).2
        intro c hc
        exact List.all_eq_true.mp this c hc
      by_cases hbin : KNOWN_TOOL_BINARIES.contains (afterLastSlash (firstToken cmd))
      · have hval : isSafeCommand cmd = { safe := true, reason := "" } := by
          unfold isSafeCommand
          rw [if_neg (by simpa using hE), if_neg (by simpa using hchars), if_pos hbin]
        constructor
        · rw [hval]
          constructor
          · intro _
            refine ⟨hall, tok, rest, htok, ?_⟩
            rw [← hfirst]
            exact hbin
          · intro _
            rfl
        · intro habs
          rw [hval] at habs
          cases habs
      · have hval : isSafeCommand cmd =
            { safe := false,
              reason := "unrecognized tool \x27" ++ afterLastSlash (firstToken cmd) ++ "\x27" } := by
          unfold isSafeCommand
          rw [if_neg (by simpa using hE), if_neg (by simpa using hchars), if_neg hbin]
        constructor
        · rw [hval]
          constructor
          · intro h
            cases h
          · rintro ⟨_, tok2, rest2, htok2, hbin2⟩
            rw [htok] at htok2
            injection htok2 with h1 _
            rw [← h1, ← hfirst] at hbin2
            exact absurd hbin2 hbin
        · intro _
          refine Or.inr (Or.inr ⟨tok, rest, htok, ?_, ?_⟩)
          · rw [← hfirst]
            exact Bool.eq_false_iff.mpr hbin
          · rw [hval, hfirst]
    · have hval : isSafeCommand cmd =
          { safe := false, reason := "contains shell metacharacters" } := by
        unfold isSafeCommand
        rw [if_neg (by simpa using hE), if_pos hchars]
      have hnall : ¬ (∀ c ∈ cmd.data, safeCmdChar c = true) := by
        intro hall
        apply hchars
        refine decide_eq_true ?_
        exact ⟨by simpa [List.isEmpty_iff] using hcmdne, List.all_eq_true.mpr hall⟩
      constructor
      · rw [hval]
        constructor
        · intro h
          cases h
        · rintro ⟨hall, _⟩
          exact absurd hall hnall
      · intro _
        exact Or.inr (Or.inl ⟨hcmdne, hnall, by rw [hval]⟩)

/-- C2 witness: the amended characterization instantiated at the
command `touch /tmp/x`, whose first token is an unrecognized tool. -/
theorem c2_isSafeCommand_spec_witness :
    ((isSafeCommand "touch /tmp/x").safe = false) ∧
    ((∃ tok rest, wsTokens "touch /tmp/x".data = tok :: rest ∧
        KNOWN_TOOL_BINARIES.contains (afterLastSlash (String.mk tok)) = false ∧
        (isSafeCommand "touch /tmp/x").reason =
          "unrecognized tool \x27" ++ afterLastSlash (String.mk tok) ++ "\x27")) := by
  refine ⟨by decide, ?_⟩
  rcases (c2_isSafeCommand_spec "touch /tmp/x").2 (by decide) with h | h | h
  · exact absurd h.1 (by decide)
  · exact absurd h.2.2 (by decide)
  · exact h

/-- Splitting a slash-free list yields one segment. -/
theorem splitSlashGo_noslash (e : List Char) (h : ∀ c ∈ e, c ≠ '/') (acc : List Char) :
    splitSlashGo acc e = [acc.reverse ++ e] := by
  induction e generalizing acc with
  | nil => simp [splitSlashGo]
  | cons c e ih =>
    have hc : c ≠ '/' := h c (List.mem_cons_self c e)
    simp only [splitSlashGo, hc, if_false]
    rw [ih (fun x hx => h x (List.mem_cons_of_mem c hx)) (c :: acc)]
    simp

/-- Splitting around the last slash isolates the slash-free suffix. -/
theorem splitSlashGo_append_noslash (x e : List Char) (h : ∀ c ∈ e, c ≠ '/')
    (acc : List Char) :
    splitSlashGo acc (x ++ '/' :: e) = splitSlashGo acc x ++ [e] := by
  induction x generalizing acc with
  | nil => simp [splitSlashGo, splitSlashGo_noslash e h]
  | cons d x ih =>
    by_cases hd : d = '/' <;> simp [splitSlashGo, hd, ih]

/-- Normalisation passes a final non-special segment through. -/
theorem normGo_append_single (l : List String) (abs : Bool) (acc : List String)
    (e : String) (h0 : e ≠ "") (h1 : e ≠ ".") (h2 : e ≠ "..") :
    normGo abs acc (l ++ [e]) = normGo abs acc l ++ [e] := by
  induction l generalizing acc with
  | nil => simp [normGo, h0, h1, h2]
  | cons c l ih =>
    by_cases hc1 : c = "" ∨ c = "."
    · simp [normGo, hc1, ih]
    · by_cases hc2 : c = ".."
      · subst hc2
        cases acc with
        | nil => cases abs <;> simp [normGo, hc1, ih]
        | cons top pre => by_cases htop : top = ".." <;> simp [normGo, hc1, htop, ih]
      · simp [normGo, hc1, hc2, ih]

/-- The last-segment scanner restarts at a slash. -/
theorem lastSeg_append_slash (a b : List Char) : lastSeg (a ++ '/' :: b) = lastSeg b := by
  show List.foldl _ [] (a ++ '/' :: b) = List.foldl _ [] b
  rw [List.foldl_append]
  rfl

/-- The last-segment scanner keeps a slash-free list whole. -/
theorem lastSeg_noslash (b : List Char) (h : ∀ c ∈ b, c ≠ '/') : lastSeg b = b := by
  have key : ∀ (l : List Char) (acc : List Char), (∀ c ∈ l, c ≠ '/') →
      List.foldl (fun acc c => if c = '/' then [] else acc ++ [c]) acc l = acc ++ l := by
    intro l
    induction l with
    | nil => intro acc _; simp
    | cons c l ih =>
      intro acc hl
      have hc : c ≠ '/' := hl c (List.mem_cons_self c l)
      simp only [List.foldl_cons, hc, if_false]
      rw [ih (acc ++ [c]) (fun x hx => hl x (List.mem_cons_of_mem c hx))]
      simp
  simpa using key b [] h

/-- The last segment of a slash join ending in a slash-free component
is that component. -/
theorem lastSeg_joinComps (l : List String) (e : String)
    (h : ∀ c ∈ e.data, c ≠ '/') :
    lastSeg (joinComps (l ++ [e])).data = e.data := by
  induction l with
  | nil => simpa [joinComps] using lastSeg_noslash e.data h
  | cons c l ih =>
    cases hx : l ++ [e] with
    | nil => exact absurd hx (by simp)
    | cons y ys =>
      have hjoin : joinComps (c :: l ++ [e]) = c ++ "/" ++ joinComps (l ++ [e]) := by
        rw [List.cons_append, hx]
        rfl
      rw [hjoin]
      have hdata : (c ++ "/" ++ joinComps (l ++ [e])).data =
          c.data ++ '/' :: (joinComps (l ++ [e])).data := by
        rw [String.data_append, String.data_append, List.append_assoc]
        rfl
      rw [hdata, lastSeg_append_slash]
      exact ih

/-- A nonempty string has a nonempty character list. -/
theorem data_ne_nil (s : String) (h : s ≠ "") : s.data ≠ [] := by
  intro hd
  apply h
  cases s
  simp at hd
  rw [hd]

/-- Basename of a join whose final component is slash-free and not a
special segment: the final component comes back unchanged. -/
theorem basename_pathJoin (x e : String) (h0 : e ≠ "") (h1 : e ≠ ".") (h2 : e ≠ "..")
    (hn : ∀ c ∈ e.data, c ≠ '/') : basename (pathJoin x e) = e := by
  have hmk : String.mk e.data = e := rfl
  by_cases hx : x = ""
  · subst hx
    have hjoin : pathJoin "" e = normalizePath e := by
      unfold pathJoin
      rw [if_neg (by simp [h0]), if_pos rfl]
    rw [hjoin]
    have hsplit : splitSlash e = [e] := by
      unfold splitSlash
      rw [splitSlashGo_noslash e.data hn []]
      simp [hmk]
    have habs : isAbs e = false := by
      unfold isAbs
      cases he : e.data with
      | nil => rfl
      | cons c cs =>
        have : c ≠ '/' := hn c (by rw [he]; exact List.mem_cons_self c cs)
        simp [this]
    have hnorm : normGo false [] [e] = [e] := by
      simpa using normGo_append_single [] false [] e h0 h1 h2
    have hval : normalizePath e = joinComps [e] := by
      simp only [normalizePath, habs, hsplit, hnorm]
      rfl
    rw [hval]
    show basename (joinComps [e]) = e
    unfold basename afterLastSlash joinComps
    rw [lastSeg_noslash e.data hn, hmk]
  · have hjoin : pathJoin x e = normalizePath (x ++ "/" ++ e) := by
      unfold pathJoin
      rw [if_neg (by simp [hx]), if_neg hx, if_neg h0]
    rw [hjoin]
    have hdata : (x ++ "/" ++ e).data = x.data ++ '/' :: e.data := by
      rw [String.data_append, String.data_append, List.append_assoc]
      rfl
    have hsplit : splitSlash (x ++ "/" ++ e) = splitSlash x ++ [e] := by
      unfold splitSlash
      rw [hdata, splitSlashGo_append_noslash x.data e.data hn []]
      simp [hmk]
    have hnorm : normGo (isAbs (x ++ "/" ++ e)) [] (splitSlash (x ++ "/" ++ e)) =
        normGo (isAbs (x ++ "/" ++ e)) [] (splitSlash x) ++ [e] := by
      rw [hsplit, normGo_append_single (splitSlash x) (isAbs (x ++ "/" ++ e)) [] e h0 h1 h2]
    by_cases habs : isAbs (x ++ "/" ++ e)
    · have hval : normalizePath (x ++ "/" ++ e) =
          "/" ++ joinComps (normGo (isAbs (x ++ "/" ++ e)) [] (splitSlash x) ++ [e]) := by
        simp only [normalizePath]
        rw [hnorm, if_pos habs]
      rw [hval]
      have hd2 : ("/" ++ joinComps (normGo (isAbs (x ++ "/" ++ e)) [] (splitSlash x) ++ [e])).data =
          [] ++ '/' :: (joinComps (normGo (isAbs (x ++ "/" ++ e)) [] (splitSlash x) ++ [e])).data := by
        rw [String.data_append]
        rfl
      unfold basename afterLastSlash
      rw [hd2, lastSeg_append_slash, lastSeg_joinComps _ e hn, hmk]
    · have hval : normalizePath (x ++ "/" ++ e) =
          joinComps (normGo (isAbs (x ++ "/" ++ e)) [] (splitSlash x) ++ [e]) := by
        simp only [normalizePath]
        rw [hnorm, if_neg habs, if_neg (by simp)]
      rw [hval]
      unfold basename afterLastSlash
      rw [lastSeg_joinComps _ e hn, hmk]

/-- The character mapping of the snapshot encoding sends nothing to a
slash. -/
theorem encode_noslash (candidate : String) :
    ∀ c ∈ (encodeSnapshotName candidate).data, c ≠ '/' := by
  intro c hc
  simp only [encodeSnapshotName, List.mem_map] at hc
  obtain ⟨a, _, rfl⟩ := hc
  by_cases ha : a = '/' ∨ a = '\\' ∨ a = ':'
  · simp [ha]
  · simp only [ha, if_false, ite_false]
    intro h
    exact ha (Or.inl h)

/-- Decoding inverts encoding on candidates free of underscore,
backslash and colon. -/
theorem decode_encode (candidate : String)
    (h : ∀ c ∈ candidate.data, c ≠ '_' ∧ c ≠ '\\' ∧ c ≠ ':') :
    decodeSnapshotBase (encodeSnapshotName candidate) = candidate := by
  cases candidate with
  | mk l =>
    show String.mk (List.map _ (List.map _ l)) = String.mk l
    rw [List.map_map]
    congr 1
    refine List.map_congr_left ?_ |>.trans (List.map_id l)
    intro a ha
    obtain ⟨h1, h2, h3⟩ := h a ha
    by_cases h4 : a = '/'
    · simp [Function.comp, h4]
    · simp [Function.comp, h4, h2, h3, h1]

/-- An encoded name is empty, `.` or `..` only when the candidate is
that very string. -/
theorem encode_special (candidate : String) :
    (encodeSnapshotName candidate = "" → candidate = "") ∧
    (encodeSnapshotName candidate = "." → candidate = ".") ∧
    (encodeSnapshotName candidate = ".." → candidate = "..") := by
  have hdot : ∀ a : Char, (if a = '/' ∨ a = '\\' ∨ a = ':' then '_' else a) = '.' → a = '.' := by
    intro a
    by_cases ha : a = '/' ∨ a = '\\' ∨ a = ':'
    · simp [ha]
    · simp [ha]
  cases candidate with
  | mk l =>
    refine ⟨?_, ?_, ?_⟩
    · intro h
      have : List.map _ l = ([] : List Char) := congrArg String.data h
      cases l with
      | nil => rfl
      | cons a t => simp at this
    · intro h
      have hd : List.map (fun c => if c = '/' ∨ c = '\\' ∨ c = ':' then '_' else c) l =
          ['.'] := congrArg String.data h
      cases l with
      | nil => simp at hd
      | cons a t =>
        cases t with
        | nil =>
          simp only [List.map_cons, List.map_nil, List.cons.injEq, and_true] at hd
          rw [show a = '.' from hdot a hd]
        | cons b u => simp at hd
    · intro h
      have hd : List.map (fun c => if c = '/' ∨ c = '\\' ∨ c = ':' then '_' else c) l =
          ['.', '.'] := congrArg String.data h
      cases l with
      | nil => simp at hd
      | cons a t =>
        cases t with
        | nil => simp at hd
        | cons b u =>
          cases u with
          | nil =>
            simp only [List.map_cons, List.map_nil, List.cons.injEq, and_true] at hd
            rw [show a = '.' from hdot a hd.1, show b = '.' from hdot b hd.2]
          | cons d v => simp at hd

/-- C8: the claim asserts the decode of a snapshot basename recovers
every original relative path; it fails on `node_modules`, whose
underscore decodes to a path separator. -/
theorem c8_encoding_lossy_counterexample :
    decodeSnapshotBase
        (basename (pathJoin (pathJoin "/snap/r1" "step1") (encodeSnapshotName "node_modules"))) =
      "node/modules" ∧
    ¬ ("node/modules" : String) = "node_modules" := by
  decide

/-- C8 (amended): for every relative source path that contains no
underscore, backslash or colon and is none of the empty string, `.` or
`..`, decoding the snapshot basename (underscore back to the
separator) recovers exactly the original relative path, so the restore
target resolved against the root equals the original source
location. -/
theorem c8_snapshot_roundtrip (cwd snapshotRoot stepId candidate : String)
    (h0 : candidate ≠ "") (h1 : candidate ≠ ".") (h2 : candidate ≠ "..")
    (h3 : ∀ c ∈ candidate.data, c ≠ '_' ∧ c ≠ '\\' ∧ c ≠ ':') :
    decodeSnapshotBase
        (basename (pathJoin (pathJoin snapshotRoot stepId) (encodeSnapshotName candidate))) =
      candidate ∧
    pathJoin cwd
        (decodeSnapshotBase
          (basename (pathJoin (pathJoin snapshotRoot stepId) (encodeSnapshotName candidate)))) =
      pathJoin cwd candidate := by
  have he0 : encodeSnapshotName candidate ≠ "" :=
    fun h => h0 ((encode_special candidate).1 h)
  have he1 : encodeSnapshotName candidate ≠ "." :=
    fun h => h1 ((encode_special candidate).2.1 h)
  have he2 : encodeSnapshotName candidate ≠ ".." :=
    fun h => h2 ((encode_special candidate).2.2 h)
  have hb : basename (pathJoin (pathJoin snapshotRoot stepId) (encodeSnapshotName candidate)) =
      encodeSnapshotName candidate :=
    basename_pathJoin (pathJoin snapshotRoot stepId) (encodeSnapshotName candidate)
      he0 he1 he2 (encode_noslash candidate)
  rw [hb, decode_encode candidate h3]
  exact ⟨rfl, rfl⟩

/-- C8 witness: the lockfile candidate `package-lock.json` round-trips
through the snapshot encoding and back. -/
theorem c8_snapshot_roundtrip_witness :
    decodeSnapshotBase
        (basename (pathJoin (pathJoin "/snap/r1" "node-lockfiles")
          (encodeSnapshotName "package-lock.json"))) =
      "package-lock.json" ∧
    pathJoin "/work"
        (decodeSnapshotBase
          (basename (pathJoin (pathJoin "/snap/r1" "node-lockfiles")
            (encodeSnapshotName "package-lock.json")))) =
      pathJoin "/work" "package-lock.json" :=
  c8_snapshot_roundtrip "/work" "/snap/r1" "node-lockfiles" "package-lock.json"
    (by decide) (by decide) (by decide) (by decide)

/-- Zipping a list with its image is mapping to pairs. -/
theorem zip_self_map {α β : Type} (f : α → β) (l : List α) :
    l.zip (l.map f) = l.map (fun a => (a, f a)) := by
  induction l with
  | nil => rfl
  | cons a rest ih => simp [ih]

/-- Substring search through a middle component of a concatenation. -/
theorem strContains_of_middle (pre mid post pat : String)
    (h : strContains mid pat = true) :
    strContains (pre ++ mid ++ post) pat = true := by
  unfold strContains at h ⊢
  rw [String.data_append, String.data_append]
  exact hasSubList_append_right _ _ _ (hasSubList_append_left _ _ _ h)

/-- Substring search through the right component of a concatenation. -/
theorem strContains_append_of_right (a b pat : String)
    (h : strContains b pat = true) :
    strContains (a ++ b) pat = true := by
  unfold strContains at h ⊢
  rw [String.data_append]
  exact hasSubList_append_left _ _ _ h

/-- When every command of the list succeeds at every instant, the
command loop reports no failure and consumes one instant per command. -/
theorem runCommands_all_ok (env : Env) (cmds : List String)
    (h : ∀ t0 : Nat, ∀ cmd ∈ cmds, (env.run t0 cmd).success = true) (t : Nat) :
    (runCommands env t cmds).1 = false ∧
    (runCommands env t cmds).2.2.1 = t + cmds.length := by
  induction cmds generalizing t with
  | nil => simp [runCommands]
  | cons c rest ih =>
    have hc : (env.run t c).success = true := h t c (List.mem_cons_self c rest)
    have hrest : ∀ t0 : Nat, ∀ cmd ∈ rest, (env.run t0 cmd).success = true :=
      fun t0 cmd hm => h t0 cmd (List.mem_cons_of_mem c hm)
    obtain ⟨ih1, ih2⟩ := ih hrest (t + 1)
    simp only [runCommands, hc, if_true, ite_true]
    refine ⟨ih1, ?_⟩
    rw [ih2]
    simp only [List.length_cons]
    omega

/-- With one port held by a live process at every instant, the poll
window never sees the ports free: the loop exhausts its rounds and
returns the failure detail naming every port with its remaining PID
output and the manual remediation command. -/
theorem pollLoop_stuck (env : Env) (ports : List String) (p : String)
    (hp : p ∈ ports) (hb : ∀ t0 : Nat, pids (env.run t0 (lsofCmd p)) ≠ []) :
    ∀ (fuel t0 : Nat),
      (pollLoop env ports fuel t0).1 = false ∧
      (pollLoop env ports fuel t0).2.1 =
        "remaining pid(s) -> " ++
          joinSep ", " (ports.map (fun q =>
            q ++ ": " ++ orNone (trimJS ((env.run (t0 + fuel) (lsofCmd q)).stdout)))) ++
          ". Try: lsof -ti :<port> | xargs kill -9" := by
  intro fuel
  induction fuel with
  | zero =>
    intro t0
    simp only [pollLoop, zip_self_map, List.map_map]
    exact ⟨by simp, rfl⟩
  | succ fuel ih =>
    intro t0
    have hbusy : ((ports.zip (ports.map (fun q => env.run t0 (lsofCmd q)))).filter
        (fun pr => !(pids pr.2).isEmpty)).isEmpty = false := by
      rw [zip_self_map]
      have hmem : (p, env.run t0 (lsofCmd p)) ∈
          ports.map (fun a => (a, env.run t0 (lsofCmd a))) :=
        List.mem_map.mpr ⟨p, hp, rfl⟩
      have hkeep : (fun pr : String × CommandResult => !(pids pr.2).isEmpty)
          (p, env.run t0 (lsofCmd p)) = true := by
        simp only [Bool.not_eq_true']
        rw [Bool.eq_false_iff]
        intro habs
        exact hb t0 (List.isEmpty_iff.mp habs)
      rw [List.isEmpty_eq_false_iff_exists_mem]
      exact ⟨_, List.mem_filter.mpr ⟨hmem, hkeep⟩⟩
    obtain ⟨ih1, ih2⟩ := ih (t0 + 1)
    simp only [pollLoop, hbusy, Bool.false_eq_true, if_false, ite_false]
    refine ⟨ih1, ?_⟩
    rw [ih2]
    have : t0 + 1 + fuel = t0 + (fuel + 1) := by omega
    rw [this]

/-- If the ports all read free at some round inside the window, the
poll loop confirms them free and sleeps the 150 ms cooldown. -/
theorem pollLoop_release (env : Env) (ports : List String) :
    ∀ (fuel t0 : Nat),
      (∃ k, k < fuel ∧ ∀ q ∈ ports, pids (env.run (t0 + k) (lsofCmd q)) = []) →
      (pollLoop env ports fuel t0).1 = true ∧
      Effect.sleep 150 ∈ (pollLoop env ports fuel t0).2.2.2 := by
  intro fuel
  induction fuel with
  | zero =>
    intro t0 ⟨k, hk, _⟩
    exact absurd hk (Nat.not_lt_zero k)
  | succ fuel ih =>
    intro t0 ⟨k, hk, hfree⟩
    by_cases hbusy : ((ports.zip (ports.map (fun q => env.run t0 (lsofCmd q)))).filter
        (fun pr => !(pids pr.2).isEmpty)).isEmpty
    · simp only [pollLoop, hbusy, if_true, ite_true]
      exact ⟨by simp, List.mem_append.mpr (Or.inr (List.mem_singleton.mpr rfl))⟩
    · have hk0 : k ≠ 0 := by
        intro hzero
        subst hzero
        apply hbusy
        rw [zip_self_map, List.isEmpty_iff, List.filter_eq_nil_iff]
        intro pr hpr
        rcases List.mem_map.mp hpr with ⟨q, hq, rfl⟩
        simp only [Bool.not_eq_true', Bool.not_eq_false]
        rw [List.isEmpty_iff]
        simpa using hfree q hq
      obtain ⟨k2, rfl⟩ : ∃ k2, k = k2 + 1 := ⟨k - 1, by omega⟩
      have hnext : ∃ j, j < fuel ∧ ∀ q ∈ ports, pids (env.run (t0 + 1 + j) (lsofCmd q)) = [] := by
        refine ⟨k2, by omega, fun q hq => ?_⟩
        have : t0 + 1 + k2 = t0 + (k2 + 1) := by omega
        rw [this]
        exact hfree q hq
      obtain ⟨ih1, ih2⟩ := ih (t0 + 1) hnext
      simp only [pollLoop, hbusy, Bool.false_eq_true, if_false, ite_false]
      refine ⟨ih1, ?_⟩
      exact List.mem_append.mpr (Or.inr (List.mem_cons_of_mem _ ih2))

/-- C5: for a ports-cleanup step whose commands all succeed, the step's
outcome is decided by observed port liveness, not by command exit
codes: if some targeted port reads a constant nonempty PID list at
every instant, the step ends `failed` with an error detail naming that
port with its PIDs and the manual remediation command; if all targeted
ports read free at some round inside the poll window, the step sleeps
the short cooldown and ends `success`. -/
theorem c5_ports_cleanup_postcheck (env : Env) (ctx : CommandContext) (dir : String)
    (t : Nat) (step : FixStep) (p pidstr : String)
    (h1 : ¬ ctx.command = Command.doctor) (h2 : ¬ ctx.command = Command.plan)
    (h3 : ctx.flags.dryRun = false) (h4 : step.destructive = false)
    (h5 : step.id = "ports-cleanup")
    (hcmds : ∀ t0 : Nat, ∀ cmd ∈ step.commands, (env.run t0 cmd).success = true)
    (hp : p ∈ extractPorts step.commands) :
    ((∀ t0 : Nat, trimJS ((env.run t0 (lsofCmd p)).stdout) = pidstr) →
      wsTokens pidstr.data ≠ [] →
      (execStep env ctx dir t step).1.status = StepStatus.failed ∧
      ∃ d, (execStep env ctx dir t step).1.error = some d ∧
        strContains d (p ++ ": " ++ pidstr) = true ∧
        strContains d "Try: lsof -ti :<port> | xargs kill -9" = true) ∧
    ((∃ k, k < pollRounds ∧ ∀ q ∈ extractPorts step.commands,
        pids (env.run (t + step.commands.length + k) (lsofCmd q)) = []) →
      (execStep env ctx dir t step).1.status = StepStatus.success ∧
      Effect.sleep 150 ∈ (execStep env ctx dir t step).2.2) := by
  have hstep : execStep env ctx dir t step = execStepBody env ctx dir t step := by
    unfold execStep
    rw [if_neg (by simp [h1, h2, h3]), if_neg (by simp [h4])]
  obtain ⟨hr1, hr2⟩ := runCommands_all_ok env step.commands hcmds t
  have hcond : ¬ (runCommands env t step.commands).1 = true ∧ step.id = "ports-cleanup" :=
    ⟨by rw [hr1]; simp, h5⟩
  constructor
  · intro hbusyOut hpid
    have hpidstr_ne : pidstr ≠ "" := by
      intro habs
      apply hpid
      rw [habs]
      rfl
    have hb : ∀ t0 : Nat, pids (env.run t0 (lsofCmd p)) ≠ [] := by
      intro t0 habs
      apply hpid
      have : wsTokens ((env.run t0 (lsofCmd p)).stdout).data = [] := by
        unfold pids at habs
        exact List.map_eq_nil_iff.mp habs
      calc wsTokens pidstr.data
          = wsTokens (trimJS ((env.run t0 (lsofCmd p)).stdout)).data := by rw [hbusyOut t0]
        _ = wsTokens ((env.run t0 (lsofCmd p)).stdout).data := wsTokens_trimJS _
        _ = [] := this
    obtain ⟨hpc1, hpc2⟩ := pollLoop_stuck env (extractPorts step.commands) p hp hb
      pollRounds (t + step.commands.length)
    have hpcneg : ¬ (verifyPortsReleased env step.commands
        (runCommands env t step.commands).2.2.1).1 = true := by
      unfold verifyPortsReleased
      rw [hr2, hpc1]
      simp
    refine ⟨?_, ⟨(verifyPortsReleased env step.commands
        (runCommands env t step.commands).2.2.1).2.1, ?_, ?_, ?_⟩⟩
    · rw [hstep]
      simp only [execStepBody]
      rw [if_pos hcond, if_pos hpcneg]
    · rw [hstep]
      simp only [execStepBody]
      rw [if_pos hcond, if_pos hpcneg]
    · unfold verifyPortsReleased
      rw [hr2, hpc2]
      apply strContains_of_middle
      apply joinSep_contains
      refine List.mem_map.mpr ⟨p, hp, ?_⟩
      rw [hbusyOut]
      unfold orNone
      rw [if_neg hpidstr_ne]
    · unfold verifyPortsReleased
      rw [hr2, hpc2]
      apply strContains_append_of_right
      decide
  · intro hfree
    obtain ⟨hpc1, hsleep⟩ := pollLoop_release env (extractPorts step.commands)
      pollRounds (t + step.commands.length) hfree
    have hpcpos : (verifyPortsReleased env step.commands
        (runCommands env t step.commands).2.2.1).1 = true := by
      unfold verifyPortsReleased
      rw [hr2]
      exact hpc1
    have hsleep2 : Effect.sleep 150 ∈ (verifyPortsReleased env step.commands
        (runCommands env t step.commands).2.2.1).2.2.2 := by
      unfold verifyPortsReleased
      rw [hr2]
      exact hsleep
    constructor
    · rw [hstep]
      simp only [execStepBody]
      rw [if_pos hcond, if_neg (by rw [hpcpos]; simp)]
    · rw [hstep]
      simp only [execStepBody]
      rw [if_pos hcond, if_neg (by rw [hpcpos]; simp)]
      exact List.mem_append.mpr (Or.inr hsleep2)

/-- C5 witness: with port 3000 permanently held by PID 4242 the
concrete ports-cleanup step fails with a detail naming `3000: 4242` and
the remediation command, even though its kill command succeeded; with
the port free the same step sleeps the cooldown and succeeds. -/
theorem c5_ports_cleanup_postcheck_witness :
    ((execStep busyEnv nonInteractiveCtx "/snap" 0 portsStep).1.status = StepStatus.failed ∧
      ∃ d, (execStep busyEnv nonInteractiveCtx "/snap" 0 portsStep).1.error = some d ∧
        strContains d ("3000" ++ ": " ++ "4242") = true ∧
        strContains d "Try: lsof -ti :<port> | xargs kill -9" = true) ∧
    ((execStep plainEnv nonInteractiveCtx "/snap" 0 portsStep).1.status = StepStatus.success ∧
      Effect.sleep 150 ∈ (execStep plainEnv nonInteractiveCtx "/snap" 0 portsStep).2.2) := by
  constructor
  · refine (c5_ports_cleanup_postcheck busyEnv nonInteractiveCtx "/snap" 0 portsStep
      "3000" "4242" (by decide) (by decide) rfl rfl rfl ?_ (by decide)).1
      (fun t0 => rfl) (by decide)
    intro t0 cmd hm
    have hl : portsStep.commands = ["lsof -ti :3000 | xargs kill -9"] := rfl
    rw [hl] at hm
    have hc : cmd = "lsof -ti :3000 | xargs kill -9" := by simpa using hm
    subst hc
    rfl
  · refine (c5_ports_cleanup_postcheck plainEnv nonInteractiveCtx "/snap" 0 portsStep
      "3000" "" (by decide) (by decide) rfl rfl rfl ?_ (by decide)).2
      ⟨0, by decide, ?_⟩
    · intro t0 cmd hm
      have hl : portsStep.commands = ["lsof -ti :3000 | xargs kill -9"] := rfl
      rw [hl] at hm
      have hc : cmd = "lsof -ti :3000 | xargs kill -9" := by simpa using hm
      subst hc
      rfl
    · intro q hq
      have he : extractPorts portsStep.commands = ["3000"] := by decide
      rw [he] at hq
      have hq2 : q = "3000" := by simpa using hq
      subst hq2
      decide

end TsCli
